import Mathlib

/-!
Shallow embedding of the version-cleanup core of gcp-monorepo-secret-manager
(GcpMonorepoSecretManager in the TypeScript source), together with proofs of
the spec claims about it.  The evaluator, orchestrator, manual cleanup entry
point and the upload path are translated from the source
(`cleanupSecretVersions`, `cleanupVersions`, `uploadSingleEnv`); the external
Secret Manager client is modelled as an oracle supplying the outcome of each
remote call, per the store interface of the spec.
-/

namespace Gcp

inductive VersionState where
  | enabled
  | disabled
  | destroyed
  | unknown
deriving DecidableEq

/-- One secret version as the cleanup code sees it: `name` and
`createTime.seconds` are optional fields of the protobuf message
(`None` models null/undefined).  Timestamps are whole seconds since epoch. -/
structure SecretVersion where
  name : Option String
  createTimeSeconds : Option Nat
  state : VersionState
deriving DecidableEq

/-- The `deletePolicy` configuration record (`types.ts`): `maxVersions` and
`maxAgeDays` are optional numbers (validated elsewhere to be non-negative
integers), `enabled` is a boolean (undefined is falsy, modelled as false). -/
structure DeletePolicy where
  maxVersions : Option Nat
  maxAgeDays : Option Nat
  enabled : Bool

/-- Truthiness test of `version.name` in JS: present and non-empty. -/
def hasName (v : SecretVersion) : Bool :=
  match v.name with
  | some n => n != ""
  | none => false

/-- Filter to versions with state ENABLED or DISABLED, as in
`versions.filter(v => v.state === 'ENABLED' || v.state === 'DISABLED')`. -/
def liveFilter (vs : List SecretVersion) : List SecretVersion :=
  vs.filter (fun v => v.state == VersionState.enabled || v.state == VersionState.disabled)

/-- Sort key used by the comparator: `a.createTime?.seconds ? Number(...) : 0`.
A missing (or zero) seconds field yields epoch time 0. -/
def timeOf (v : SecretVersion) : Nat :=
  v.createTimeSeconds.getD 0

/-- Insert into a list sorted by `timeOf` descending, keeping the inserted
element before strictly-smaller keys and after earlier equal keys. -/
def insertDesc (v : SecretVersion) : List SecretVersion → List SecretVersion
  | [] => [v]
  | w :: ws => if timeOf w < timeOf v then v :: w :: ws else w :: insertDesc v ws

/-- Stable descending sort by creation time, modelling the ES2019-stable
`Array.prototype.sort` with comparator `timeB - timeA` in the source. -/
def sortByTimeDesc : List SecretVersion → List SecretVersion
  | [] => []
  | v :: vs => insertDesc v (sortByTimeDesc vs)

/-- Number of seconds in one day, used to model
`cutoffDate.setDate(cutoffDate.getDate() - maxAgeDays)` as exact days. -/
def daySeconds : Nat := 86400

/-- Age test of the `maxAgeDays` rule: the source returns false when
`createTime?.seconds` is absent or zero (JS falsiness), otherwise compares
the version timestamp against `now - maxAgeDays` days. -/
def isOld (now d : Nat) (v : SecretVersion) : Bool :=
  match v.createTimeSeconds with
  | some s => s != 0 && decide (s + d * daySeconds < now)
  | none => false

/-- One step of the age-candidate loop: push unless a version with the same
`name` is already marked (`!versionsToDestroy.find(v => v.name === old.name)`). -/
def pushIfNew (acc : List SecretVersion) (v : SecretVersion) : List SecretVersion :=
  if acc.any (fun w => w.name == v.name) then acc else acc ++ [v]

/-- The `oldVersions.forEach(...)` loop appending deduplicated age candidates. -/
def addOldVersions (acc : List SecretVersion) (olds : List SecretVersion) : List SecretVersion :=
  olds.foldl pushIfNew acc

/-- Count-based candidates: `sortedVersions.slice(maxVersions)` when
`deletePolicy.maxVersions && deletePolicy.maxVersions > 0`. -/
def countPart (p : DeletePolicy) (sorted : List SecretVersion) : List SecretVersion :=
  match p.maxVersions with
  | some k => if 0 < k then sorted.drop k else []
  | none => []

/-- Age-based candidates: live versions older than the cutoff, when
`deletePolicy.maxAgeDays && deletePolicy.maxAgeDays > 0`. -/
def oldPart (p : DeletePolicy) (now : Nat) (sorted : List SecretVersion) : List SecretVersion :=
  match p.maxAgeDays with
  | some d => if 0 < d then sorted.filter (isOld now d) else []
  | none => []

/-- The `versionsToDestroy` array right before the floor check: count
candidates pushed first, then age candidates deduplicated by name. -/
def destroyList0 (p : DeletePolicy) (now : Nat) (sorted : List SecretVersion) : List SecretVersion :=
  addOldVersions (countPart p sorted) (oldPart p now sorted)

/-- The floor check: `if (versionsToDestroy.length >= sortedVersions.length)
versionsToDestroy.splice(-1, 1)` — drop the last marked version. -/
def applyFloor (sorted destroy0 : List SecretVersion) : List SecretVersion :=
  if sorted.length ≤ destroy0.length then destroy0.dropLast else destroy0

/-- The full destroy-set computation of `cleanupSecretVersions` on a listed
snapshot: filter to live states, sort newest first, apply both rules, then
the floor correction. -/
def versionsToDestroy (p : DeletePolicy) (now : Nat) (versions : List SecretVersion) : List SecretVersion :=
  applyFloor (sortByTimeDesc (liveFilter versions)) (destroyList0 p now (sortByTimeDesc (liveFilter versions)))

/-- Names the destroy loop issues requests for: the loop body runs only
under `if (version.name)`. -/
def destroyCalls (vs : List SecretVersion) : List String :=
  vs.filterMap (fun v =>
    match v.name with
    | some n => if n = "" then none else some n
    | none => none)

/-- Value of the `pageSize: 100` parameter the source passes to its single
listing call.  The promise-style auto-paginating client uses it only to size
the underlying page requests; it does not cap the resolved result, so the
constant plays no role in the returned version list. -/
def listPageSize : Nat := 100

/-- Oracle for the external Secret Manager client during one cleanup:
the full version history held by the store, whether the listing call fails,
and which destroy calls succeed. -/
structure Store where
  allVersions : List SecretVersion
  listFails : Option String
  destroyOk : String → Bool

/-- The listing call of one cleanup run.  The source awaits the promise-style
`client.listSecretVersions({parent, pageSize: 100})` of the auto-paginating
client: the resolved array merges all pages, so on success the call yields the
store's full version history — `pageSize` does not truncate it — matching the
spec's `listVersions(secretId) -> list<SecretVersion>` interface, which has no
page cap either.  On failure the typed error surfaces. -/
def listSecretVersions (st : Store) : Except String (List SecretVersion) :=
  match st.listFails with
  | some e => Except.error e
  | none => Except.ok st.allVersions

/-- Observable outcome of one cleanup run: destroy requests issued (in
order), which of them succeeded and failed, and whether the outer catch
swallowed a listing error into a warning. -/
structure CleanupResult where
  attempted : List String
  destroyed : List String
  failedDestroys : List String
  listingWarning : Bool
deriving DecidableEq

/-- Shallow embedding of `cleanupSecretVersions`: return if the policy is
disabled; the listing happens inside a try whose catch only warns; a raw
list of length ≤ 1 returns early; each destroy call's failure is caught in
the per-item try and recorded, never aborting the loop. -/
def cleanupSecretVersions (p : DeletePolicy) (now : Nat) (st : Store) : CleanupResult :=
  if !p.enabled then ⟨[], [], [], false⟩
  else
    match listSecretVersions st with
    | Except.error _ => ⟨[], [], [], true⟩
    | Except.ok versions =>
      if versions.length ≤ 1 then ⟨[], [], [], false⟩
      else
        let calls := destroyCalls (versionsToDestroy p now versions)
        ⟨calls, calls.filter st.destroyOk, calls.filter (fun n => !st.destroyOk n), false⟩

/-- One configured service (only the fields the cleanup path reads; the
`secretBase` field models the secretPre fix used to build the secret name). -/
structure ServiceConfig where
  name : String
  secretBase : String

/-- The configuration surface the manual cleanup path reads. -/
structure Config where
  services : List ServiceConfig

/-- `configManager.getServiceByName`. -/
def getServiceByName (c : Config) (n : String) : Option ServiceConfig :=
  c.services.find? (fun s => s.name == n)

/-- `getSecretName`: throws when the service is not configured. -/
def getSecretName (c : Config) (n : String) : Except String String :=
  match getServiceByName c n with
  | some s => Except.ok (s.secretBase ++ "_ENV_FILE")
  | none => Except.error ("Service not found in configuration: " ++ n)

/-- The manual `cleanupVersions` entry point for a single named service:
resolve the secret name (may throw), then run `cleanupSecretVersions`,
which itself never throws. -/
def cleanupVersionsOne (c : Config) (p : DeletePolicy) (now : Nat) (st : Store) (serviceName : String) : Except String CleanupResult :=
  match getSecretName c serviceName with
  | Except.error e => Except.error e
  | Except.ok _ => Except.ok (cleanupSecretVersions p now st)

def mkv (nm : String) (t : Nat) : SecretVersion :=
  ⟨some nm, some t, VersionState.enabled⟩

def exNow : Nat := 1700000000

def exVersions : List SecretVersion :=
  (List.range 12).reverse.map (fun i => mkv ("v" ++ toString i) (exNow - i * daySeconds))

def exPolicy : DeletePolicy := ⟨some 5, some 3, true⟩

def c7Versions : List SecretVersion :=
  [⟨some "gone1", some 1000, VersionState.destroyed⟩,
   ⟨some "keep", some 2000, VersionState.enabled⟩,
   ⟨some "gone2", some 3000, VersionState.unknown⟩]

def c7Store : Store := ⟨c7Versions, none, fun _ => true⟩

def c7Policy : DeletePolicy := ⟨some 1, some 1, true⟩

def c6Versions : List SecretVersion :=
  [mkv "n1" 600, mkv "n2" 500, mkv "n3" 400, mkv "n4" 300, mkv "n5" 200, mkv "n6" 100]

def c6Policy : DeletePolicy := ⟨some 1, none, true⟩

def c6Store : Store := ⟨c6Versions, none, fun n => !(n == "n3" || n == "n5")⟩

def c10None : SecretVersion := ⟨some "c", none, VersionState.enabled⟩

def c10Versions : List SecretVersion :=
  [c10None, mkv "a" 100, mkv "b" 200]

def c10Policy : DeletePolicy := ⟨some 2, some 30, true⟩

def c3New : SecretVersion := ⟨some "new", some 1000000, VersionState.enabled⟩

def c3Old : SecretVersion := ⟨some "old", some 500000, VersionState.enabled⟩

def c3Policy : DeletePolicy := ⟨none, some 1, true⟩

def c3Now : Nat := 1200000

def c2Config : Config := ⟨[⟨"api", "api-env-vars"⟩]⟩

def c2Policy : DeletePolicy := ⟨some 10, some 30, true⟩

def c2Store : Store := ⟨[], some "7 PERMISSION_DENIED: access denied", fun _ => true⟩

/-- One hundred and one enabled versions listed newest first: "w0" is the
newest, "w100" the oldest and the 101st element of the listing. -/
def c9Versions : List SecretVersion :=
  (List.range 101).map (fun i => mkv ("w" ++ toString i) (10000000 - i * 3600))

def c9Policy : DeletePolicy := ⟨some 1, none, true⟩

def c9Store : Store := ⟨c9Versions, none, fun _ => true⟩

/-- Substring test modelling `(error as Error).message.includes('NOT_FOUND')`. -/
def containsNotFound (msg : String) : Bool :=
  decide ("NOT_FOUND".toList <:+: msg.toList)

/-- Oracle for the remote calls of one `uploadSingleEnv` run: whether the env
file exists, the outcomes of getSecret, addSecretVersion (inside the try),
createSecret and the second addSecretVersion (inside the catch), and the
cleanup oracle for the post-upload cleanup (`none` means the call succeeds). -/
structure UploadStore where
  envFileExists : Bool
  getSecretErr : Option String
  addVersionErr : Option String
  createSecretErr : Option String
  addVersionErr2 : Option String
  cleanupStore : Store

/-- Observable outcome of a successful upload: whether the secret was created
fresh, whether a version was added, whether the post-upload cleanup ran and
what it returned. -/
structure UploadOutcome where
  createdNewSecret : Bool
  versionAdded : Bool
  cleanupRan : Bool
  cleanupResult : Option CleanupResult
deriving DecidableEq

/-- The catch block of `uploadSingleEnv`: on a NOT_FOUND error create the
secret and add its first version (errors thrown inside the catch propagate);
any other error is rethrown.  No cleanup is invoked on this path. -/
def runCatch (st : UploadStore) (e : String) : Except String UploadOutcome :=
  if containsNotFound e then
    match st.createSecretErr with
    | some e2 => Except.error e2
    | none =>
      match st.addVersionErr2 with
      | some e2 => Except.error e2
      | none => Except.ok ⟨true, true, false, none⟩
  else Except.error e

/-- Shallow embedding of `uploadSingleEnv`: missing env file throws; the try
block runs getSecret then addSecretVersion then `cleanupSecretVersions`
(which is total — every internal failure is swallowed); an error from
getSecret or addSecretVersion lands in the catch block. -/
def uploadSingleEnv (p : DeletePolicy) (now : Nat) (st : UploadStore) : Except String UploadOutcome :=
  if !st.envFileExists then Except.error "Environment file not found"
  else
    match st.getSecretErr with
    | some e => runCatch st e
    | none =>
      match st.addVersionErr with
      | some e => runCatch st e
      | none =>
        Except.ok ⟨false, true, true, some (cleanupSecretVersions p now st.cleanupStore)⟩

/-- Projection of an upload result onto everything except the cleanup
outcome: used to state that the cleanup oracle never influences the upload's
own success or failure. -/
def uploadControl : Except String UploadOutcome → Except String (Bool × Bool × Bool)
  | Except.error e => Except.error e
  | Except.ok o => Except.ok (o.createdNewSecret, o.versionAdded, o.cleanupRan)

def c5Store : Store := ⟨[], none, fun _ => true⟩

def c5Upload : UploadStore :=
  ⟨true, some "5 NOT_FOUND: Secret does not exist", none, none, none, c5Store⟩

/-! Properties of the stable descending sort. -/
theorem length_insertDesc (v : SecretVersion) (l : List SecretVersion) :
    (insertDesc v l).length = l.length + 1 := by
  induction l with
  | nil => rfl
  | cons w ws ih =>
    rw [insertDesc]
    split
    · simp
    · simp [ih]

theorem length_sortByTimeDesc (l : List SecretVersion) :
    (sortByTimeDesc l).length = l.length := by
  induction l with
  | nil => rfl
  | cons v vs ih => rw [sortByTimeDesc, length_insertDesc, ih]; rfl

theorem mem_insertDesc {w v : SecretVersion} {l : List SecretVersion} :
    w ∈ insertDesc v l ↔ w = v ∨ w ∈ l := by
  induction l with
  | nil => simp [insertDesc]
  | cons x xs ih =>
    rw [insertDesc]
    split
    · simp
    · simp only [List.mem_cons, ih]
      tauto

theorem mem_sortByTimeDesc {w : SecretVersion} {l : List SecretVersion} :
    w ∈ sortByTimeDesc l ↔ w ∈ l := by
  induction l with
  | nil => simp [sortByTimeDesc]
  | cons v vs ih => rw [sortByTimeDesc]; simp [mem_insertDesc, ih]

theorem pairwise_insertDesc {v : SecretVersion} {l : List SecretVersion}
    (h : l.Pairwise (fun a b => timeOf b ≤ timeOf a)) :
    (insertDesc v l).Pairwise (fun a b => timeOf b ≤ timeOf a) := by
  induction l with
  | nil => simp [insertDesc]
  | cons w ws ih =>
    rw [insertDesc]
    rcases List.pairwise_cons.mp h with ⟨hw, hws⟩
    split
    · rename_i hlt
      refine List.pairwise_cons.mpr ⟨?_, h⟩
      intro x hx
      rcases List.mem_cons.mp hx with hx | hx
      · subst hx; exact Nat.le_of_lt hlt
      · exact Nat.le_trans (hw x hx) (Nat.le_of_lt hlt)
    · rename_i hge
      refine List.pairwise_cons.mpr ⟨?_, ih hws⟩
      intro x hx
      rcases mem_insertDesc.mp hx with hx | hx
      · subst hx; exact Nat.le_of_not_lt hge
      · exact hw x hx

theorem sorted_sortByTimeDesc (l : List SecretVersion) :
    (sortByTimeDesc l).Pairwise (fun a b => timeOf b ≤ timeOf a) := by
  induction l with
  | nil => simp [sortByTimeDesc]
  | cons v vs ih => exact pairwise_insertDesc ih

theorem timeOf_getLast_le {l : List SecretVersion} (h : l ≠ [])
    (hp : l.Pairwise (fun a b => timeOf b ≤ timeOf a)) :
    ∀ v ∈ l, timeOf (l.getLast h) ≤ timeOf v := by
  intro v hv
  have hdecomp : l.dropLast ++ [l.getLast h] = l := List.dropLast_append_getLast h
  rw [← hdecomp] at hp hv
  rcases List.mem_append.mp hv with hv | hv
  · exact (List.pairwise_append.mp hp).2.2 v hv _ (List.mem_singleton_self _)
  · rw [List.mem_singleton.mp hv]

/-! Properties of the deduplicating age-candidate loop. -/
theorem addOldVersions_nil (acc : List SecretVersion) : addOldVersions acc [] = acc := rfl

theorem addOldVersions_cons (acc : List SecretVersion) (v : SecretVersion) (rest : List SecretVersion) :
    addOldVersions acc (v :: rest) = addOldVersions (pushIfNew acc v) rest := rfl

theorem addOldVersions_append_sublist (olds : List SecretVersion) :
    ∀ acc, ∃ S, addOldVersions acc olds = acc ++ S ∧ S.Sublist olds := by
  induction olds with
  | nil => intro acc; exact ⟨[], by simp [addOldVersions_nil], List.nil_sublist _⟩
  | cons v rest ih =>
    intro acc
    rw [addOldVersions_cons, pushIfNew]
    split
    · obtain ⟨S, hS, hsub⟩ := ih acc
      exact ⟨S, hS, hsub.cons v⟩
    · obtain ⟨S, hS, hsub⟩ := ih (acc ++ [v])
      refine ⟨v :: S, ?_, hsub.cons₂ v⟩
      rw [hS, List.append_assoc, List.singleton_append]

theorem addOldVersions_skip (olds : List SecretVersion) :
    ∀ acc, (∀ v ∈ olds, ∃ w ∈ acc, w.name = v.name) → addOldVersions acc olds = acc := by
  induction olds with
  | nil => intro acc _; rfl
  | cons v rest ih =>
    intro acc h
    rw [addOldVersions_cons, pushIfNew]
    obtain ⟨w, hw, hweq⟩ := h v (List.mem_cons_self v rest)
    have hany : acc.any (fun w => w.name == v.name) = true :=
      List.any_eq_true.mpr ⟨w, hw, by rw [hweq]; exact beq_self_eq_true _⟩
    rw [if_pos hany]
    exact ih acc (fun x hx => h x (List.mem_cons_of_mem v hx))

theorem mem_name_addOldVersions (olds : List SecretVersion) :
    ∀ (acc : List SecretVersion) (n : Option String),
      n ∈ (addOldVersions acc olds).map SecretVersion.name ↔
        n ∈ acc.map SecretVersion.name ∨ n ∈ olds.map SecretVersion.name := by
  induction olds with
  | nil => intro acc n; simp [addOldVersions_nil]
  | cons v rest ih =>
    intro acc n
    rw [addOldVersions_cons, pushIfNew]
    split
    · rename_i hany
      obtain ⟨w, hw, hbeq⟩ := List.any_eq_true.mp hany
      have hwv : w.name = v.name := eq_of_beq hbeq
      rw [ih]
      simp only [List.map_cons, List.mem_cons]
      constructor
      · tauto
      · rintro (h | h | h)
        · exact Or.inl h
        · exact Or.inl (by rw [h, ← hwv]; exact List.mem_map_of_mem SecretVersion.name hw)
        · exact Or.inr h
    · rw [ih]
      simp only [List.map_append, List.map_cons, List.map_nil, List.mem_append, List.mem_cons]
      tauto

/-! Structure of the candidate list before the floor check. -/
theorem oldPart_sublist (p : DeletePolicy) (now : Nat) (sorted : List SecretVersion) :
    (oldPart p now sorted).Sublist sorted := by
  rw [oldPart]
  cases p.maxAgeDays with
  | none => exact List.nil_sublist _
  | some d =>
    by_cases hd : 0 < d
    · simp only [if_pos hd]; exact List.filter_sublist _
    · simp only [if_neg hd]; exact List.nil_sublist _

theorem countPart_eq_drop {p : DeletePolicy} {k : Nat} (hk : p.maxVersions = some k) (hpos : 0 < k)
    (sorted : List SecretVersion) : countPart p sorted = sorted.drop k := by
  rw [countPart, hk]
  exact if_pos hpos

theorem countPart_sublist (p : DeletePolicy) (sorted : List SecretVersion) :
    (countPart p sorted).Sublist sorted := by
  rw [countPart]
  cases p.maxVersions with
  | none => exact List.nil_sublist _
  | some k =>
    by_cases hk : 0 < k
    · simp only [if_pos hk]; exact List.drop_sublist k sorted
    · simp only [if_neg hk]; exact List.nil_sublist _

theorem destroyList0_length_le (p : DeletePolicy) (now : Nat) (sorted : List SecretVersion) :
    (destroyList0 p now sorted).length ≤ sorted.length := by
  rw [destroyList0]
  rcases hmv : p.maxVersions with _ | k
  · have hcp : countPart p sorted = [] := by rw [countPart, hmv]
    rw [hcp]
    obtain ⟨S, hS, hsub⟩ := addOldVersions_append_sublist (oldPart p now sorted) []
    rw [hS, List.nil_append]
    exact Nat.le_trans hsub.length_le (oldPart_sublist p now sorted).length_le
  · by_cases hpos : 0 < k
    · have hcp : countPart p sorted = sorted.drop k := countPart_eq_drop hmv hpos sorted
      rcases had : p.maxAgeDays with _ | d
      · have hop : oldPart p now sorted = [] := by rw [oldPart, had]
        rw [hop, addOldVersions_nil, hcp, List.length_drop]
        omega
      · by_cases hdpos : 0 < d
        · have hop : oldPart p now sorted = sorted.filter (isOld now d) := by
            rw [oldPart, had]; exact if_pos hdpos
          rw [hcp, hop]
          have hsplit : sorted.filter (isOld now d) =
              (sorted.take k).filter (isOld now d) ++ (sorted.drop k).filter (isOld now d) := by
            rw [← List.filter_append, List.take_append_drop]
          rw [hsplit, addOldVersions, List.foldl_append, ← addOldVersions, ← addOldVersions]
          obtain ⟨S, hS, hsub⟩ :=
            addOldVersions_append_sublist ((sorted.take k).filter (isOld now d)) (sorted.drop k)
          rw [hS]
          have hskip : addOldVersions (sorted.drop k ++ S) ((sorted.drop k).filter (isOld now d))
              = sorted.drop k ++ S := by
            apply addOldVersions_skip
            intro v hv
            exact ⟨v, List.mem_append_left _ (List.mem_of_mem_filter hv), rfl⟩
          rw [hskip, List.length_append, List.length_drop]
          have h1 : S.length ≤ ((sorted.take k).filter (isOld now d)).length := hsub.length_le
          have h2 : ((sorted.take k).filter (isOld now d)).length ≤ (sorted.take k).length :=
            (List.filter_sublist _).length_le
          have h3 : (sorted.take k).length = min k sorted.length := List.length_take k sorted
          omega
        · have hop : oldPart p now sorted = [] := by
            rw [oldPart, had]; exact if_neg hdpos
          rw [hop, addOldVersions_nil]
          exact (countPart_sublist p sorted).length_le
    · have hcp : countPart p sorted = [] := by
        rw [countPart, hmv]; exact if_neg hpos
      rw [hcp]
      obtain ⟨S, hS, hsub⟩ := addOldVersions_append_sublist (oldPart p now sorted) []
      rw [hS, List.nil_append]
      exact Nat.le_trans hsub.length_le (oldPart_sublist p now sorted).length_le

theorem mem_destroyList0 {p : DeletePolicy} {now : Nat} {sorted : List SecretVersion}
    {v : SecretVersion} (h : v ∈ destroyList0 p now sorted) :
    v ∈ countPart p sorted ∨ v ∈ oldPart p now sorted := by
  rw [destroyList0] at h
  obtain ⟨S, hS, hsub⟩ := addOldVersions_append_sublist (oldPart p now sorted) (countPart p sorted)
  rw [hS] at h
  rcases List.mem_append.mp h with h | h
  · exact Or.inl h
  · exact Or.inr (hsub.subset h)

theorem mem_sorted_of_mem_destroyList0 {p : DeletePolicy} {now : Nat} {sorted : List SecretVersion}
    {v : SecretVersion} (h : v ∈ destroyList0 p now sorted) : v ∈ sorted := by
  rcases mem_destroyList0 h with h | h
  · exact (countPart_sublist p sorted).subset h
  · exact (oldPart_sublist p now sorted).subset h

theorem mem_liveFilter_of_mem_versionsToDestroy {p : DeletePolicy} {now : Nat}
    {versions : List SecretVersion} {v : SecretVersion}
    (h : v ∈ versionsToDestroy p now versions) : v ∈ liveFilter versions := by
  rw [versionsToDestroy, applyFloor] at h
  have h2 : v ∈ destroyList0 p now (sortByTimeDesc (liveFilter versions)) := by
    split at h
    · exact (List.dropLast_sublist _).subset h
    · exact h
  exact mem_sortByTimeDesc.mp (mem_sorted_of_mem_destroyList0 h2)

/-! Core facts used by several claims. -/
theorem versionsToDestroy_length_lt (p : DeletePolicy) (now : Nat) (versions : List SecretVersion)
    (h : liveFilter versions ≠ []) :
    (versionsToDestroy p now versions).length < (liveFilter versions).length := by
  have hn : 0 < (liveFilter versions).length := List.length_pos.mpr h
  have hsl : (sortByTimeDesc (liveFilter versions)).length = (liveFilter versions).length :=
    length_sortByTimeDesc _
  have hb := destroyList0_length_le p now (sortByTimeDesc (liveFilter versions))
  rw [versionsToDestroy, applyFloor]
  split
  · rename_i htrig
    rw [List.length_dropLast]
    omega
  · rename_i htrig
    omega

theorem versionsToDestroy_nil_of_live_short (p : DeletePolicy) (now : Nat)
    (versions : List SecretVersion) (h : (liveFilter versions).length ≤ 1) :
    versionsToDestroy p now versions = [] := by
  rw [versionsToDestroy]
  rcases hlv : liveFilter versions with _ | ⟨v, _ | ⟨w, rest⟩⟩
  · have hs : sortByTimeDesc ([] : List SecretVersion) = [] := rfl
    rw [hs]
    have hcp : countPart p [] = [] := by
      rw [countPart]; cases p.maxVersions <;> simp
    have hop : oldPart p now [] = [] := by
      rw [oldPart]; cases p.maxAgeDays <;> simp
    rw [destroyList0, hcp, hop, addOldVersions_nil, applyFloor]
    simp
  · have hs : sortByTimeDesc [v] = [v] := rfl
    rw [hs]
    have hcp : countPart p [v] = [] := by
      rw [countPart]
      cases p.maxVersions with
      | none => rfl
      | some k =>
        by_cases hk : 0 < k
        · simp only [if_pos hk]
          exact List.drop_eq_nil_of_le (by simpa using hk)
        · simp only [if_neg hk]
    obtain ⟨S, hS, hsub⟩ := addOldVersions_append_sublist (oldPart p now [v]) (countPart p [v])
    have hSv : S.Sublist [v] := hsub.trans (oldPart_sublist p now [v])
    rw [destroyList0, hS, hcp, List.nil_append, applyFloor]
    rcases List.sublist_singleton.mp hSv with hS0 | hS0 <;> subst hS0 <;> simp
  · exfalso
    rw [hlv] at h
    simp at h

theorem mem_destroyCalls {n : String} {vs : List SecretVersion} :
    n ∈ destroyCalls vs ↔ ∃ v ∈ vs, v.name = some n ∧ n ≠ "" := by
  rw [destroyCalls]
  rw [List.mem_filterMap]
  constructor
  · rintro ⟨v, hv, hf⟩
    refine ⟨v, hv, ?_⟩
    rcases hnm : v.name with _ | m
    · rw [hnm] at hf; exact absurd hf (by simp)
    · rw [hnm] at hf
      have hf2 : (if m = "" then (none : Option String) else some m) = some n := hf
      by_cases hm : m = ""
      · rw [if_pos hm] at hf2; exact absurd hf2 (by simp)
      · rw [if_neg hm] at hf2
        have hmn : m = n := by injection hf2
        subst hmn
        exact ⟨rfl, hm⟩
  · rintro ⟨v, hv, hvn, hne⟩
    exact ⟨v, hv, by rw [hvn]; simp [hne]⟩

theorem length_filter_add_length_filter_not (l : List String) (q : String → Bool) :
    (l.filter q).length + (l.filter (fun n => !q n)).length = l.length := by
  induction l with
  | nil => rfl
  | cons x xs ih =>
    by_cases hx : q x
    · simp [List.filter_cons, hx, ih]
      omega
    · simp [List.filter_cons, hx, ih]
      omega

theorem live_state_of_mem_liveFilter {v : SecretVersion} {versions : List SecretVersion}
    (h : v ∈ liveFilter versions) :
    v.state = VersionState.enabled ∨ v.state = VersionState.disabled := by
  rw [liveFilter] at h
  have hb0 := List.of_mem_filter h
  have hb : (v.state == VersionState.enabled || v.state == VersionState.disabled) = true := hb0
  rcases hst : v.state
  · exact Or.inl rfl
  · exact Or.inr rfl

  · rw [hst] at hb; exact absurd hb (by decide)
  · rw [hst] at hb; exact absurd hb (by decide)

theorem cleanup_cases (p : DeletePolicy) (now : Nat) (st : Store) :
    (p.enabled = false ∧ cleanupSecretVersions p now st = ⟨[], [], [], false⟩) ∨
    (p.enabled = true ∧ (∃ e, st.listFails = some e) ∧
      cleanupSecretVersions p now st = ⟨[], [], [], true⟩) ∨
    (p.enabled = true ∧ st.listFails = none ∧
      (st.allVersions).length ≤ 1 ∧
      cleanupSecretVersions p now st = ⟨[], [], [], false⟩) ∨
    (p.enabled = true ∧ st.listFails = none ∧
      ¬ (st.allVersions).length ≤ 1 ∧
      cleanupSecretVersions p now st =
        ⟨destroyCalls (versionsToDestroy p now (st.allVersions)),
         (destroyCalls (versionsToDestroy p now (st.allVersions))).filter st.destroyOk,
         (destroyCalls (versionsToDestroy p now (st.allVersions))).filter
           (fun n => !st.destroyOk n),
         false⟩) := by
  rw [cleanupSecretVersions]
  split
  · rename_i hen0
    left
    exact ⟨by revert hen0; cases p.enabled <;> simp, rfl⟩
  · rename_i hen0
    have hen : p.enabled = true := by revert hen0; cases p.enabled <;> simp
    split
    · rename_i e hok
      right; left
      refine ⟨hen, ?_, rfl⟩
      rw [listSecretVersions] at hok
      rcases h : st.listFails with _ | e2
      · rw [h] at hok; exact absurd hok (by simp)
      · exact ⟨e2, rfl⟩
    · rename_i versions hok
      have hlf : st.listFails = none := by
        rw [listSecretVersions] at hok
        rcases h : st.listFails with _ | e
        · rfl
        · rw [h] at hok; exact absurd hok (by simp)
      have hv : versions = st.allVersions := by
        rw [listSecretVersions, hlf] at hok
        exact (Except.ok.inj hok).symm
      subst hv
      split
      · rename_i hlen
        right; right; left
        exact ⟨hen, hlf, hlen, rfl⟩
      · rename_i hlen
        right; right; right
        exact ⟨hen, hlf, hlen, rfl⟩

theorem attempted_mem_characterization {p : DeletePolicy} {now : Nat} {st : Store} {n : String}
    (h : n ∈ (cleanupSecretVersions p now st).attempted) :
    ∃ v ∈ versionsToDestroy p now (st.allVersions),
      v.name = some n ∧ n ≠ "" := by
  rcases cleanup_cases p now st with ⟨_, hc⟩ | ⟨_, _, hc⟩ | ⟨_, _, _, hc⟩ | ⟨_, _, _, hc⟩ <;>
    rw [hc] at h
  · simp at h
  · simp at h
  · simp at h
  · exact mem_destroyCalls.mp h

/-- C1: for every version list and every retention policy, the destroy set
computed by the cleanup is strictly smaller than the live set (the versions
with state ENABLED or DISABLED) whenever the live set is non-empty, so at
least one live version always survives. -/
theorem cleanup_floor_invariant (p : DeletePolicy) (now : Nat) (versions : List SecretVersion)
    (h : liveFilter versions ≠ []) :
    (versionsToDestroy p now versions).length < (liveFilter versions).length :=
  versionsToDestroy_length_lt p now versions h

/-- Witness for C1 at a concrete 12-version history. -/
theorem cleanup_floor_invariant_witness :
    liveFilter exVersions ≠ [] ∧
      (versionsToDestroy exPolicy exNow exVersions).length < (liveFilter exVersions).length :=
  ⟨by decide, cleanup_floor_invariant exPolicy exNow exVersions (by decide)⟩

/-- C7: whenever the live set of the store's history has at most one member —
even in the presence of additional DESTROYED or UNKNOWN versions — the
evaluation returns the empty destroy set and the cleanup issues no destroy
calls. -/
theorem trivial_live_set_no_op (p : DeletePolicy) (now : Nat) (st : Store)
    (h : (liveFilter st.allVersions).length ≤ 1) :
    versionsToDestroy p now st.allVersions = [] ∧
      (cleanupSecretVersions p now st).attempted = [] := by
  have h1 := versionsToDestroy_nil_of_live_short p now st.allVersions h
  refine ⟨h1, ?_⟩
  rcases cleanup_cases p now st with ⟨_, hc⟩ | ⟨_, _, hc⟩ | ⟨_, _, _, hc⟩ | ⟨_, _, _, hc⟩ <;>
    rw [hc]
  rw [h1, destroyCalls]
  rfl

/-- Witness for C7: one live version among destroyed and unknown ones. -/
theorem trivial_live_set_no_op_witness :
    (liveFilter c7Store.allVersions).length ≤ 1 ∧
      versionsToDestroy c7Policy 5000 c7Store.allVersions = [] ∧
      (cleanupSecretVersions c7Policy 5000 c7Store).attempted = [] :=
  ⟨by decide, (trivial_live_set_no_op c7Policy 5000 c7Store (by decide)).1,
    (trivial_live_set_no_op c7Policy 5000 c7Store (by decide)).2⟩

/-- C8: only versions whose state is ENABLED or DISABLED ever appear in the
destroy set, and every destroy request issued by the cleanup targets the name
of such a live version of the listed history; DESTROYED and UNKNOWN versions
never enter retention accounting. -/
theorem only_live_states_destroyed (p : DeletePolicy) (now : Nat)
    (versions : List SecretVersion) (st : Store) :
    (∀ v ∈ versionsToDestroy p now versions,
        v.state = VersionState.enabled ∨ v.state = VersionState.disabled) ∧
    (∀ n ∈ (cleanupSecretVersions p now st).attempted,
        ∃ v ∈ liveFilter (st.allVersions),
          v.name = some n ∧
            (v.state = VersionState.enabled ∨ v.state = VersionState.disabled)) := by
  constructor
  · intro v hv
    exact live_state_of_mem_liveFilter (mem_liveFilter_of_mem_versionsToDestroy hv)
  · intro n hn
    obtain ⟨v, hv, hname, _⟩ := attempted_mem_characterization hn
    have hlive := mem_liveFilter_of_mem_versionsToDestroy hv
    exact ⟨v, hlive, hname, live_state_of_mem_liveFilter hlive⟩

/-- Witness for C8 at a mixed-state history (hypotheses are the two membership
premises of the universally quantified conjuncts). -/
theorem only_live_states_destroyed_witness :
    (mkv "v11" (exNow - 11 * daySeconds)) ∈ versionsToDestroy exPolicy exNow exVersions ∧
      ((mkv "v11" (exNow - 11 * daySeconds)).state = VersionState.enabled ∨
        (mkv "v11" (exNow - 11 * daySeconds)).state = VersionState.disabled) :=
  ⟨by decide,
    (only_live_states_destroyed exPolicy exNow exVersions ⟨[], none, fun _ => true⟩).1
      (mkv "v11" (exNow - 11 * daySeconds)) (by decide)⟩

/-- Counterexample to C9: the cleanup run on a 101-version history issues a
destroy request for the 101st listed version ("w100", which is not among the
first 100 returned versions) — the auto-paginating listing returns the whole
history, so versions beyond the first hundred ARE evaluated and destroyed. -/
theorem beyond_first_hundred_destroyed_counterexample :
    c9Versions.length = 101 ∧
      some "w100" ∉ (c9Versions.take 100).map SecretVersion.name ∧
      "w100" ∈ (cleanupSecretVersions c9Policy 0 c9Store).attempted := by
  decide

/-- C9 amended: one cleanup run takes a single consistent listing snapshot at
the start and computes the whole destroy decision from it, but that snapshot
is the store's full version history — the request's pageSize 100 only sizes
the auto-paginating client's underlying pages and caps nothing — so every
listed version, including any beyond the first 100, is evaluated and may be
destroyed; every destroy request targets a live version of that snapshot. -/
theorem cleanup_evaluates_full_listing (p : DeletePolicy) (now : Nat) (st : Store)
    (hen : p.enabled = true) (hlf : st.listFails = none)
    (hlen : 1 < st.allVersions.length) :
    (cleanupSecretVersions p now st).attempted =
      destroyCalls (versionsToDestroy p now st.allVersions) ∧
    ∀ n ∈ (cleanupSecretVersions p now st).attempted,
      ∃ v ∈ liveFilter st.allVersions, v.name = some n := by
  constructor
  · rcases cleanup_cases p now st with ⟨hd, _⟩ | ⟨_, ⟨e, he⟩, _⟩ | ⟨_, _, hl, _⟩ |
      ⟨_, _, _, hc⟩
    · rw [hen] at hd; exact absurd hd (by simp)
    · rw [hlf] at he; exact absurd he (by simp)
    · exact absurd hl (not_le.mpr hlen)
    · rw [hc]
  · intro n hn
    obtain ⟨v, hv, hname, _⟩ := attempted_mem_characterization hn
    exact ⟨v, mem_liveFilter_of_mem_versionsToDestroy hv, hname⟩

/-- Witness for C9 amended at the concrete 101-version store. -/
theorem cleanup_evaluates_full_listing_witness :
    (cleanupSecretVersions c9Policy 0 c9Store).attempted =
      destroyCalls (versionsToDestroy c9Policy 0 c9Store.allVersions) :=
  (cleanup_evaluates_full_listing c9Policy 0 c9Store rfl rfl (by decide)).1

/-- C4: with both limits nonzero, the candidate list before the floor check
holds exactly the names of the count-based candidates (sorted index at least
maxVersions) together with the age-based candidates (older than the cutoff);
and on the spec's 12-version one-day-apart history with maxVersions 5 and
maxAgeDays 3 evaluated at the newest creation time, the final destroy set is
exactly the versions at sorted indices 4 through 11, the survivors being
indices 0 through 3. -/
theorem union_semantics :
    (∀ (p : DeletePolicy) (now k d : Nat) (versions : List SecretVersion),
        p.maxVersions = some k → 0 < k → p.maxAgeDays = some d → 0 < d →
        ∀ n : Option String,
          (n ∈ (destroyList0 p now (sortByTimeDesc (liveFilter versions))).map SecretVersion.name ↔
            n ∈ ((sortByTimeDesc (liveFilter versions)).drop k).map SecretVersion.name ∨
            n ∈ ((sortByTimeDesc (liveFilter versions)).filter (isOld now d)).map SecretVersion.name)) ∧
    (versionsToDestroy exPolicy exNow exVersions).map SecretVersion.name =
      [some "v5", some "v6", some "v7", some "v8", some "v9", some "v10", some "v11", some "v4"] ∧
    (∀ i, i < 12 →
      ((some ("v" ++ toString i) ∈ (versionsToDestroy exPolicy exNow exVersions).map SecretVersion.name)
        ↔ 4 ≤ i)) := by
  refine ⟨?_, by decide, by decide⟩
  intro p now k d versions hk hkpos hd hdpos n
  rw [destroyList0, countPart_eq_drop hk hkpos]
  have hop : oldPart p now (sortByTimeDesc (liveFilter versions)) =
      (sortByTimeDesc (liveFilter versions)).filter (isOld now d) := by
    rw [oldPart, hd]; exact if_pos hdpos
  rw [hop]
  exact mem_name_addOldVersions _ _ n

/-- Witness for C4: the union membership instantiated on the 12-version
history at the name of the oldest version. -/
theorem union_semantics_witness :
    some "v11" ∈ (destroyList0 exPolicy exNow (sortByTimeDesc (liveFilter exVersions))).map
        SecretVersion.name ↔
      some "v11" ∈ ((sortByTimeDesc (liveFilter exVersions)).drop 5).map SecretVersion.name ∨
      some "v11" ∈ ((sortByTimeDesc (liveFilter exVersions)).filter (isOld exNow 3)).map
        SecretVersion.name :=
  union_semantics.1 exPolicy exNow 5 3 exVersions rfl (by decide) rfl (by decide) (some "v11")

/-- C6: during the destroy phase the set of issued destroy requests does not
depend on which destroy calls fail (no early abort), per-item failures are
recorded rather than propagated (succeeded plus failed always account for all
attempts), every computed candidate with a version name is attempted, and on
a concrete run of five candidates whose second and fourth destroys fail the
outcome shows five attempted, three succeeded, two failed. -/
theorem destroy_failures_isolated :
    (∀ (p : DeletePolicy) (now : Nat) (st₁ st₂ : Store),
        st₁.allVersions = st₂.allVersions → st₁.listFails = st₂.listFails →
        (cleanupSecretVersions p now st₁).attempted = (cleanupSecretVersions p now st₂).attempted) ∧
    (∀ (p : DeletePolicy) (now : Nat) (st : Store),
        (cleanupSecretVersions p now st).destroyed.length
          + (cleanupSecretVersions p now st).failedDestroys.length
          = (cleanupSecretVersions p now st).attempted.length) ∧
    (∀ (p : DeletePolicy) (now : Nat) (st : Store) (v : SecretVersion) (n : String),
        p.enabled = true → st.listFails = none →
        v ∈ versionsToDestroy p now (st.allVersions) →
        v.name = some n → n ≠ "" →
        n ∈ (cleanupSecretVersions p now st).attempted) ∧
    ((cleanupSecretVersions c6Policy 0 c6Store).attempted.length = 5 ∧
      (cleanupSecretVersions c6Policy 0 c6Store).destroyed.length = 3 ∧
      (cleanupSecretVersions c6Policy 0 c6Store).failedDestroys.length = 2) := by
  refine ⟨?_, ?_, ?_, by decide⟩
  · intro p now st₁ st₂ hAll hLF
    have hls : listSecretVersions st₁ = listSecretVersions st₂ := by
      rw [listSecretVersions, listSecretVersions, hAll, hLF]
    rw [cleanupSecretVersions, cleanupSecretVersions, hls]
    split
    · rfl
    · rcases hres : listSecretVersions st₂ with e | versions
      · rfl
      · split
        · rfl
        · split <;> rfl
  · intro p now st
    rcases cleanup_cases p now st with ⟨_, hc⟩ | ⟨_, _, hc⟩ | ⟨_, _, _, hc⟩ | ⟨_, _, _, hc⟩ <;>
      rw [hc]
    · rfl
    · rfl
    · rfl
    · exact length_filter_add_length_filter_not _ _
  · intro p now st v n hen hlf hv hname hne
    rcases cleanup_cases p now st with ⟨hd, _⟩ | ⟨_, ⟨e, he⟩, _⟩ | ⟨_, _, hlen, _⟩ |
      ⟨_, _, _, hc⟩
    · rw [hen] at hd; exact absurd hd (by simp)
    · rw [hlf] at he; exact absurd he (by simp)
    · exfalso
      have hlive : (liveFilter (st.allVersions)).length ≤ 1 :=
        Nat.le_trans (List.filter_sublist _).length_le hlen
      rw [versionsToDestroy_nil_of_live_short p now _ hlive] at hv
      exact absurd hv (List.not_mem_nil v)
    · rw [hc]
      exact mem_destroyCalls.mpr ⟨v, hv, hname, hne⟩

/-- Witness for C6: the every-candidate-attempted conjunct discharged on the
concrete five-candidate store. -/
theorem destroy_failures_isolated_witness :
    "n2" ∈ (cleanupSecretVersions c6Policy 0 c6Store).attempted :=
  destroy_failures_isolated.2.2.1 c6Policy 0 c6Store (mkv "n2" 500) "n2" rfl rfl
    (by decide) rfl (by decide)

/-- C10: a live version with no createTime.seconds gets sort key 0 (the
epoch), hence never sorts above any other version; it is never an age-based
candidate whatever the policy; and on a concrete history it does become a
count-based member of the destroy set once maxVersions is exceeded. -/
theorem missing_createTime_handling :
    (∀ v : SecretVersion, v.createTimeSeconds = none →
        timeOf v = 0 ∧ ∀ w : SecretVersion, timeOf v ≤ timeOf w) ∧
    (∀ (now d : Nat) (v : SecretVersion), v.createTimeSeconds = none →
        isOld now d v = false) ∧
    (∀ (p : DeletePolicy) (now : Nat) (sorted : List SecretVersion) (v : SecretVersion),
        v.createTimeSeconds = none → v ∉ oldPart p now sorted) ∧
    versionsToDestroy c10Policy 300 c10Versions = [c10None] := by
  refine ⟨?_, ?_, ?_, by decide⟩
  · intro v hv
    constructor
    · rw [timeOf, hv]; rfl
    · intro w
      rw [timeOf, hv]
      exact Nat.zero_le _
  · intro now d v hv
    rw [isOld, hv]
  · intro p now sorted v hv hmem
    have hsub : (oldPart p now sorted).Sublist sorted := oldPart_sublist p now sorted
    rw [oldPart] at hmem
    rcases hd : p.maxAgeDays with _ | d
    · rw [hd] at hmem; exact absurd hmem (List.not_mem_nil v)
    · rw [hd] at hmem
      have hmem2 : v ∈ (if 0 < d then sorted.filter (isOld now d) else []) := hmem
      by_cases hdp : 0 < d
      · rw [if_pos hdp] at hmem2
        have hold := List.of_mem_filter hmem2
        rw [isOld, hv] at hold
        exact absurd hold (by simp)
      · rw [if_neg hdp] at hmem2; exact absurd hmem2 (List.not_mem_nil v)

/-- Witness for C10: the never-an-age-candidate conjunct at the concrete
timeless version. -/
theorem missing_createTime_handling_witness :
    c10None ∉ oldPart c10Policy 300 (sortByTimeDesc (liveFilter c10Versions)) :=
  missing_createTime_handling.2.2.1 c10Policy 300
    (sortByTimeDesc (liveFilter c10Versions)) c10None rfl

/-- Counterexample to C3: with the count rule disabled and both live versions
older than one day, the union covers the whole live set and the floor check
fires; the element spliced away from the candidate list is the OLDEST version
(the newest remains in the destroy set and is destroyed), contradicting the
claim that the removed version is the newest by createdAt. -/
theorem floor_removes_oldest_counterexample :
    destroyList0 c3Policy c3Now (sortByTimeDesc (liveFilter [c3New, c3Old])) = [c3New, c3Old] ∧
    versionsToDestroy c3Policy c3Now [c3New, c3Old] = [c3New] ∧
    timeOf c3Old < timeOf c3New := by
  decide

/-- C3 amended: the floor correction removes the LAST element of the candidate
array; whenever the count-based candidate list is empty (count rule disabled
or not exceeded) and the correction fires, the removed element is an oldest
live version (minimal createdAt), not the newest. -/
theorem floor_removes_last_candidate (p : DeletePolicy) (now : Nat)
    (versions : List SecretVersion)
    (hcp : countPart p (sortByTimeDesc (liveFilter versions)) = [])
    (hne : liveFilter versions ≠ [])
    (htrig : (sortByTimeDesc (liveFilter versions)).length ≤
      (destroyList0 p now (sortByTimeDesc (liveFilter versions))).length) :
    ∃ rem,
      destroyList0 p now (sortByTimeDesc (liveFilter versions)) =
        versionsToDestroy p now versions ++ [rem] ∧
      ∀ v ∈ liveFilter versions, timeOf rem ≤ timeOf v := by
  have hsne : sortByTimeDesc (liveFilter versions) ≠ [] := by
    intro h0
    apply hne
    have := length_sortByTimeDesc (liveFilter versions)
    rw [h0] at this
    exact List.length_eq_zero.mp this.symm
  have hd0 : destroyList0 p now (sortByTimeDesc (liveFilter versions)) =
      sortByTimeDesc (liveFilter versions) := by
    rw [destroyList0, hcp]
    obtain ⟨S, hS, hsub⟩ :=
      addOldVersions_append_sublist (oldPart p now (sortByTimeDesc (liveFilter versions))) []
    rw [hS, List.nil_append]
    rw [destroyList0, hcp, hS, List.nil_append] at htrig
    have hSsub : S.Sublist (sortByTimeDesc (liveFilter versions)) :=
      hsub.trans (oldPart_sublist p now (sortByTimeDesc (liveFilter versions)))
    exact hSsub.eq_of_length (Nat.le_antisymm hSsub.length_le htrig)
  refine ⟨(sortByTimeDesc (liveFilter versions)).getLast hsne, ?_, ?_⟩
  · rw [hd0, versionsToDestroy, applyFloor, if_pos (by rw [hd0])]
    rw [hd0]
    exact (List.dropLast_append_getLast hsne).symm
  · intro v hv
    exact timeOf_getLast_le hsne (sorted_sortByTimeDesc (liveFilter versions)) v
      (mem_sortByTimeDesc.mpr hv)

/-- Witness for C3 amended: at the two-version history the removed candidate
is the oldest live version. -/
theorem floor_removes_last_candidate_witness :
    ∃ rem,
      destroyList0 c3Policy c3Now (sortByTimeDesc (liveFilter [c3New, c3Old])) =
        versionsToDestroy c3Policy c3Now [c3New, c3Old] ++ [rem] ∧
      ∀ v ∈ liveFilter [c3New, c3Old], timeOf rem ≤ timeOf v :=
  floor_removes_last_candidate c3Policy c3Now [c3New, c3Old] (by decide) (by decide) (by decide)

/-- Counterexample to C2: with the listing call failing, the manual cleanup
for a configured service returns normally (Except.ok) with zero destroy calls
and only a recorded warning — the error is swallowed by the catch inside
cleanupSecretVersions, not raised to the caller. -/
theorem listing_failure_not_raised_counterexample :
    cleanupVersionsOne c2Config c2Policy 0 c2Store "api" =
      Except.ok ⟨[], [], [], true⟩ := by
  rfl

/-- C2 amended: if listing a secret's versions fails, the manual cleanup for a
configured service issues zero destroy calls but does NOT propagate the error:
cleanupSecretVersions catches it, records a warning, and the caller receives a
normal success value. -/
theorem listing_failure_swallowed (c : Config) (p : DeletePolicy) (now : Nat) (st : Store)
    (sn e : String) (hen : p.enabled = true) (hfail : st.listFails = some e)
    (hsvc : (getServiceByName c sn).isSome = true) :
    cleanupVersionsOne c p now st sn = Except.ok ⟨[], [], [], true⟩ := by
  rcases h : getServiceByName c sn with _ | s
  · rw [h] at hsvc; exact absurd hsvc (by simp)
  · have hgs : getSecretName c sn = Except.ok (s.secretBase ++ "_ENV_FILE") := by
      rw [getSecretName, h]
    have hc : cleanupSecretVersions p now st = ⟨[], [], [], true⟩ := by
      rcases cleanup_cases p now st with ⟨hd, _⟩ | ⟨_, _, hcc⟩ | ⟨_, hn, _, _⟩ | ⟨_, hn, _, _⟩
      · rw [hen] at hd; exact absurd hd (by simp)
      · exact hcc
      · rw [hfail] at hn; exact absurd hn (by simp)
      · rw [hfail] at hn; exact absurd hn (by simp)
    rw [cleanupVersionsOne, hgs, hc]

/-- Witness for C2 amended, at the concrete failing store. -/
theorem listing_failure_swallowed_witness :
    cleanupVersionsOne c2Config c2Policy 5 c2Store "api" = Except.ok ⟨[], [], [], true⟩ :=
  listing_failure_swallowed c2Config c2Policy 5 c2Store "api"
    "7 PERMISSION_DENIED: access denied" rfl rfl rfl

/-- Counterexample to C5: an upload against a not-yet-existing secret
succeeds and creates a new version (the first one), yet cleanup is NOT
invoked — the create-branch of uploadSingleEnv skips cleanupSecretVersions,
contradicting the claim that cleanup runs after every successful
version-creating upload. -/
theorem upload_new_secret_skips_cleanup_counterexample :
    uploadSingleEnv c2Policy 0 c5Upload = Except.ok ⟨true, true, false, none⟩ := by
  rfl

theorem runCatch_ok {st : UploadStore} {e : String} {o : UploadOutcome}
    (h : runCatch st e = Except.ok o) : o = ⟨true, true, false, none⟩ := by
  rw [runCatch] at h
  split at h
  · split at h
    · exact absurd h (by simp)
    · split at h
      · exact absurd h (by simp)
      · exact (Except.ok.inj h).symm
  · exact absurd h (by simp)

/-- C5 amended: cleanup is invoked automatically exactly on successful uploads
that add a version to an already-existing secret (on the create-secret path it
is skipped), and the outcome of the post-upload cleanup — including listing
failures and destroy failures, all swallowed inside cleanupSecretVersions —
never influences whether the upload itself succeeds or what it reports. -/
theorem upload_cleanup_coupling (p : DeletePolicy) (now : Nat) (st : UploadStore) :
    (∀ o, uploadSingleEnv p now st = Except.ok o →
        o.cleanupRan = !o.createdNewSecret ∧ o.versionAdded = true) ∧
    (∀ cs : Store,
        uploadControl (uploadSingleEnv p now { st with cleanupStore := cs }) =
          uploadControl (uploadSingleEnv p now st)) := by
  constructor
  · intro o ho
    rw [uploadSingleEnv] at ho
    split at ho
    · exact absurd ho (by simp)
    · split at ho
      · rw [runCatch_ok ho]; exact ⟨rfl, rfl⟩
      · split at ho
        · rw [runCatch_ok ho]; exact ⟨rfl, rfl⟩
        · rw [← Except.ok.inj ho]; exact ⟨rfl, rfl⟩
  · intro cs
    rw [uploadSingleEnv, uploadSingleEnv]
    simp only []
    split
    · rfl
    · split
      · rfl
      · split
        · rfl
        · rfl

/-- Witness for C5 amended: the coupling facts instantiated at the concrete
new-secret upload. -/
theorem upload_cleanup_coupling_witness :
    (⟨true, true, false, none⟩ : UploadOutcome).cleanupRan =
        !(⟨true, true, false, none⟩ : UploadOutcome).createdNewSecret ∧
      (⟨true, true, false, none⟩ : UploadOutcome).versionAdded = true :=
  (upload_cleanup_coupling c2Policy 0 c5Upload).1 ⟨true, true, false, none⟩ rfl

end Gcp
